import Mathlib

/-!
# Verification of the DocumentIntelligence retrieval engine

Shallow embedding of `src/search_engine.py`: text preprocessing,
inverted-index construction (`create_index`), query scoring and ranking
(`search_documents`), and snippet extraction with highlighting
(`extract_snippets`).

Python `dict`s are modelled as association lists with insertion-order
semantics (`alistInsert` updates an existing key in place and appends a
fresh key at the end, matching `d[k] = v`).  Python `float` division of
term counts is modelled with exact rationals `ℚ`.  Fallible code
(`documents[doc_id]`, which raises `KeyError`) is modelled with `Option`.

The NLTK pieces used by `preprocess_text` (word tokenizer, stopword set,
Porter stemmer) are external library objects, so `preprocess_text`,
`create_index` and `search_documents` are parametrised by them; concrete
instantiations used for witnesses are modelled from the spec (§4.1) and
marked as such.
-/

namespace DocIntel

/-! ## Association lists (Python `dict` with insertion order) -/

/-- First-match lookup, like `d[k]` / `d.get(k)` on a Python dict
(keys are unique in an actual dict, so first match is the match). -/
def alookup {α β : Type} [DecidableEq α] (k : α) : List (α × β) → Option β
  | [] => none
  | (k', v) :: rest => if k' = k then some v else alookup k rest

/-- Model of `d[k] = v` on a Python dict: update in place if the key exists,
append at the end otherwise. -/
def alistInsert {α β : Type} [DecidableEq α] (k : α) (v : β) :
    List (α × β) → List (α × β)
  | [] => [(k, v)]
  | (k', v') :: rest =>
    if k' = k then (k, v) :: rest else (k', v') :: alistInsert k v rest

/-- Model of `list(set(xs))`, as keep-first-occurrence deduplication
(CPython's set iteration order is unspecified; the facts proved below
do not depend on this choice). -/
def dedupAux {α : Type} [DecidableEq α] (seen : List α) : List α → List α
  | [] => []
  | x :: xs => if x ∈ seen then dedupAux seen xs else x :: dedupAux (x :: seen) xs

/-! ## Data model -/

/-- A document record as consumed by the engine: the `'content'`,
`'filename'` and `'metadata'` entries of the Python document dict. -/
structure Doc where
  content : String
  filename : String
  metadata : List (String × String)
deriving DecidableEq, Repr

/-- The inverted index: `{term: {doc_id: normalized weight}}`. -/
abbrev Index := List (String × List (String × ℚ))

/-- One entry of the result list built by `search_documents`. -/
structure SearchResult where
  doc_id : String
  filename : String
  score : ℚ
  snippets : List String
  metadata : List (String × String)
deriving DecidableEq, Repr

/-! ## `preprocess_text` (src/search_engine.py lines 20-42) -/

/-- Python `str.isalpha()`: nonempty and all characters alphabetic. -/
def pyIsAlpha (s : String) : Bool := !s.data.isEmpty && s.data.all Char.isAlpha

/-- Model of Python `str.lower()` (character-wise lowering; exact on the
ASCII inputs used here). -/
def strToLower (s : String) : String := String.mk (s.data.map Char.toLower)

/-- Model of `preprocess_text`: lowercase+tokenize, keep alphabetic tokens, drop
stopwords, stem.  Parametrised by the external NLTK tokenizer, stopword
set and stemmer. -/
def preprocess_text (tokenize : String → List String) (stop_words : List String)
    (stem : String → String) (text : String) : List String :=
  (((tokenize (strToLower text)).filter pyIsAlpha).filter
    (fun t => !(stop_words.contains t))).map stem

/-! ## `create_index` (src/search_engine.py lines 44-78) -/

/-- One step of the term-frequency counting loop:
`term_freq[token] += 1` with default `1`. -/
def bumpCount (tf : List (String × Nat)) (tok : String) : List (String × Nat) :=
  match alookup tok tf with
  | some n => alistInsert tok (n + 1) tf
  | none => alistInsert tok 1 tf

def countTokensAux : List (String × Nat) → List String → List (String × Nat)
  | tf, [] => tf
  | tf, t :: ts => countTokensAux (bumpCount tf t) ts

/-- The `term_freq` dict built from a document's token list. -/
def countTokens (tokens : List String) : List (String × Nat) :=
  countTokensAux [] tokens

/-- Model of `max(term_freq.values()) if term_freq else 1`. -/
def maxFreq (tf : List (String × Nat)) : Nat :=
  match tf with
  | [] => 1
  | _ => (tf.map Prod.snd).foldl Nat.max 0

/-- Model of `index[token][doc_id] = freq / max_freq` (creating `index[token]`
when absent). -/
def addTermEntry (idx : Index) (docId : String) (m : Nat) (t : String) (n : Nat) :
    Index :=
  alistInsert t (alistInsert docId ((n : ℚ) / (m : ℚ)) ((alookup t idx).getD [])) idx

def addDocAux (docId : String) (m : Nat) : Index → List (String × Nat) → Index
  | idx, [] => idx
  | idx, (t, n) :: tf => addDocAux docId m (addTermEntry idx docId m t n) tf

/-- The per-document body of the indexing loop. -/
def addDocToIndex (idx : Index) (docId : String) (tf : List (String × Nat)) : Index :=
  addDocAux docId (maxFreq tf) idx tf

def createAux (pp : String → List String) : Index → List (String × Doc) → Index
  | idx, [] => idx
  | idx, (d, doc) :: rest =>
    createAux pp (addDocToIndex idx d (countTokens (pp doc.content))) rest

/-- Model of `create_index(documents)`, with the preprocessing pipeline `pp`
supplied as a function. -/
def create_index (pp : String → List String) (documents : List (String × Doc)) :
    Index :=
  createAux pp [] documents

/-! ## Scoring and ranking (src/search_engine.py lines 94-133) -/

/-- Inner loop over `index[token].items()`:
`scores[doc_id] = scores.get(doc_id, 0) + term_weight`. -/
def addPostings : List (String × ℚ) → List (String × ℚ) → List (String × ℚ)
  | scores, [] => scores
  | scores, (d, w) :: ps =>
    addPostings (alistInsert d ((alookup d scores).getD 0 + w) scores) ps

/-- The scoring loop over all query tokens (note: over every occurrence,
not over distinct tokens). -/
def scoreDocs (index : Index) : List String → List (String × ℚ) → List (String × ℚ)
  | [], scores => scores
  | t :: ts, scores =>
    scoreDocs index ts
      (match alookup t index with
       | none => scores
       | some ps => addPostings scores ps)

/-- Stable insertion for descending-by-score order, matching
`sorted(scores.items(), key=lambda x: x[1], reverse=True)`. -/
def insertDesc (x : String × ℚ) : List (String × ℚ) → List (String × ℚ)
  | [] => [x]
  | y :: ys => if y.2 ≤ x.2 then x :: y :: ys else y :: insertDesc x ys

def sortDesc (l : List (String × ℚ)) : List (String × ℚ) := l.foldr insertDesc []

/-! ## `extract_snippets` (src/search_engine.py lines 135-202) -/

/-- Model of `\w` for the ASCII fragment relevant here. -/
def isWordChar (c : Char) : Bool := c.isAlpha || c.isDigit || c == '_'

def optWord : Option Char → Bool
  | none => false
  | some c => isWordChar c

/-- The regex word boundary `\b` between two adjacent positions. -/
def isBoundary (prev next : Option Char) : Bool := optWord prev != optWord next

/-- Strip a literal prefix (character-exact). -/
def stripLit : List Char → List Char → Option (List Char)
  | [], rest => some rest
  | _, [] => none
  | a :: as, b :: bs => if a = b then stripLit as bs else none

/-- Model of greedy `[a-zA-Z]*`: maximal run of ASCII letters, and the rest. -/
def takeAlphaRun : List Char → List Char × List Char
  | [] => ([], [])
  | c :: rest =>
    if c.isAlpha then
      let (r, rest') := takeAlphaRun rest
      (c :: r, rest')
    else ([], c :: rest)

/-- Attempt to match `\b<pre>[a-zA-Z]*\b` at the current position
(`prev` is the character just before it).  The interpolated prefix is
treated as a literal, which is exact for the alphabetic tokens produced
by preprocessing.  Returns the matched text and the remainder. -/
def tryMatch (pre : List Char) (prev : Option Char) (s : List Char) :
    Option (List Char × List Char) :=
  if pre.isEmpty then none
  else if isBoundary prev s.head? then
    match stripLit pre s with
    | none => none
    | some rest1 =>
      let (run, rest2) := takeAlphaRun rest1
      let m := pre ++ run
      if isBoundary m.getLast? rest2.head? then some (m, rest2) else none
  else none

/-- Model of the `re.findall` scan: leftmost, non-overlapping; on failure advance one
character.  Fuel is an upper bound on the number of scan steps (each
step consumes at least one character). -/
def findAllAux (pre : List Char) : Nat → Option Char → List Char → List (List Char)
  | 0, _, _ => []
  | _ + 1, _, [] => []
  | fuel + 1, prev, c :: rest =>
    match tryMatch pre prev (c :: rest) with
    | some (m, rest2) => m :: findAllAux pre fuel m.getLast? rest2
    | none => findAllAux pre fuel (some c) rest

/-- Model of `re.findall` for the pattern built from the literal `pre`. -/
def findAll (pre text : List Char) : List (List Char) :=
  findAllAux pre (text.length + 1) none text

/-- Model of `term[:3] if len(term) > 3 else term`. -/
def getPrefix3 (term : List Char) : List Char :=
  if term.length > 3 then term.take 3 else term

/-- Lines 151-160: collect the deduplicated surface forms matched by the
3-character prefix patterns over the lowercased content. -/
def collectTerms (content : List Char) (queryTerms : List (List Char)) :
    List (List Char) :=
  dedupAux []
    ((queryTerms.map (fun t => findAll (getPrefix3 t) (content.map Char.toLower))).flatten)

def isTermPunct (c : Char) : Bool := c == '.' || c == '!' || c == '?'

def prevPunct : Option Char → Bool
  | none => false
  | some c => isTermPunct c

/-- Model of the sentence split regex: cut at each maximal
whitespace run immediately preceded by terminal punctuation.
`skipping` is true while consuming such a run. -/
def splitAux : Bool → Option Char → List Char → List Char → List (List Char)
  | _, _, acc, [] => [acc.reverse]
  | skipping, prev, acc, c :: rest =>
    if skipping && c.isWhitespace then splitAux true (some c) acc rest
    else if !skipping && c.isWhitespace && prevPunct prev then
      acc.reverse :: splitAux true (some c) [] rest
    else splitAux false (some c) (c :: acc) rest

def splitSentences (content : List Char) : List (List Char) :=
  splitAux false none [] content

/-- Python `needle in hay` on strings. -/
def containsSub (needle : List Char) : List Char → Bool
  | [] => needle.isEmpty
  | c :: rest => needle.isPrefixOf (c :: rest) || containsSub needle rest

/-- Strip a prefix up to ASCII case (for `re.IGNORECASE` literal match). -/
def stripCI : List Char → List Char → Option (List Char)
  | [], rest => some rest
  | _, [] => none
  | a :: as, b :: bs => if a.toLower = b.toLower then stripCI as bs else none

/-- Model of case-insensitive literal substitution: leftmost
non-overlapping case-insensitive replacement of the literal `t`. -/
def subCIAux (t marked : List Char) : Nat → List Char → List Char
  | 0, s => s
  | _ + 1, [] => []
  | fuel + 1, c :: rest =>
    match stripCI t (c :: rest) with
    | some rest' => marked ++ subCIAux t marked fuel rest'
    | none => c :: subCIAux t marked fuel rest

def subCI (t s : List Char) : List Char :=
  subCIAux t (('*' :: '*' :: t) ++ ['*', '*']) (s.length + 1) s

/-- Lines 185-189: fold the per-term substitutions over the sentence. -/
def highlightSentence (terms : List (List Char)) (sentence : List Char) : List Char :=
  terms.foldl (fun h t => subCI t h) sentence

/-- Model of `rfind` of a space over the half-open index range. -/
def rfindSpace (s : List Char) (lo hi : Nat) : Option Nat :=
  (((List.range hi).drop lo).filter (fun i => s.get? i = some ' ')).getLast?

def ellipsis : List Char := ['.', '.', '.']

/-- Lines 191-198: truncate an over-long highlighted sentence,
preferring a space between `max_length/2` and `max_length`. -/
def truncateSnippet (maxLength : Nat) (h : List Char) : List Char :=
  if maxLength < h.length then
    let bp := (rfindSpace h (maxLength / 2) maxLength).getD maxLength
    h.take bp ++ ellipsis
  else h

/-- Lines 170-175: the sentences whose lowercased form contains at
least one collected surface form. -/
def matchingSentences (content : List Char) (originalTerms : List (List Char)) :
    List (List Char) :=
  (splitSentences content).filter
    (fun s => originalTerms.any (fun t => containsSub t (s.map Char.toLower)))

/-- Body of `extract_snippets` over character lists. -/
def extractSnippetsCore (content : List Char) (queryTerms : List (List Char))
    (numSnippets maxLength : Nat) : List (List Char) :=
  let originalTerms := collectTerms content queryTerms
  if originalTerms.isEmpty then [content.take maxLength ++ ellipsis]
  else
    let matching := matchingSentences content originalTerms
    if matching.isEmpty then [content.take maxLength ++ ellipsis]
    else
      (matching.take numSnippets).map
        (fun s => truncateSnippet maxLength (highlightSentence originalTerms s))

/-- Model of `extract_snippets(content, query_terms, num_snippets, max_length)`. -/
def extract_snippets (content : String) (query_terms : List String)
    (num_snippets max_length : Nat) : List String :=
  (extractSnippetsCore content.data (query_terms.map String.data)
    num_snippets max_length).map String.mk

/-! ## `search_documents` result formatting (lines 112-133) -/

/-- The result-formatting loop.  `documents[doc_id]` raises `KeyError`
when the id is absent, so the whole call is modelled as `Option`:
`none` is the fail-fast outcome. -/
def formatResults (documents : List (String × Doc)) (queryTokens : List String) :
    List (String × ℚ) → Option (List SearchResult)
  | [] => some []
  | (d, s) :: rest =>
    match alookup d documents with
    | none => none
    | some doc =>
      match formatResults documents queryTokens rest with
      | none => none
      | some rs =>
        some ({ doc_id := d, filename := doc.filename, score := s,
                snippets := extract_snippets doc.content queryTokens 3 200,
                metadata := doc.metadata } :: rs)

/-- Model of `search_documents(query, index, documents, max_results)`,
parametrised by the NLTK pieces like `preprocess_text`. -/
def search_documents (tokenize : String → List String) (stop_words : List String)
    (stem : String → String) (query : String) (index : Index)
    (documents : List (String × Doc)) (max_results : Nat) :
    Option (List SearchResult) :=
  let query_tokens := preprocess_text tokenize stop_words stem query
  if query_tokens.isEmpty then some []
  else
    formatResults documents query_tokens
      ((sortDesc (scoreDocs index query_tokens [])).take max_results)

/-! ## Derived notions used to state the claims -/

/-- Two-level lookup `index[t][d]` as an `Option`. -/
def lookup2 (t d : String) (idx : Index) : Option ℚ :=
  (alookup t idx).bind (alookup d)

/-- The per-document normalized weight a token list induces for a term:
`raw count / max raw count`, absent when the term does not occur. -/
def docWeight (toks : List String) (t : String) : Option ℚ :=
  if toks.count t = 0 then none
  else some ((toks.count t : ℚ) / (maxFreq (countTokens toks) : ℚ))

/-- Sum, over the query token list in order and with multiplicity, of
the indexed weight of each token for document `d` (0 when the token or
the document is absent).  This is the score the code actually computes. -/
def multiScore (idx : Index) (d : String) : List String → ℚ
  | [] => 0
  | t :: ts => (lookup2 t d idx).getD 0 + multiScore idx d ts

/-- The score as claim C1 words it: the same sum but over the
deduplicated query tokens, each distinct token counted once. -/
def dedupScore (idx : Index) (d : String) (qt : List String) : ℚ :=
  multiScore idx d (dedupAux [] qt)

/-! ## Concrete normalizer instantiation for witnesses

`preprocess_text` depends on three external NLTK objects.  The
instantiations below are modelled from the spec and are used only to
evaluate the theorems on concrete inputs. -/

def alphaRunsAux : List Char → List Char → List (List Char)
  | acc, [] => if acc.isEmpty then [] else [acc.reverse]
  | acc, c :: rest =>
    if c.isAlpha then alphaRunsAux (c :: acc) rest
    else if acc.isEmpty then alphaRunsAux [] rest
    else acc.reverse :: alphaRunsAux [] rest

/-- Modelled from the spec: the external NLTK word tokenizer
("lowercase and tokenize on word boundaries", §4.1), rendered as the
maximal alphabetic runs of the text; punctuation tokens that NLTK would
emit are dropped by the `isalpha` filter anyway. -/
def specTokenize (s : String) : List String :=
  (alphaRunsAux [] s.data).map String.mk

/-- Modelled from the spec: the external "fixed English stopword set"
(§4.1), restricted to the words appearing in the fixtures. -/
def specStopwords : List String :=
  ["the", "a", "an", "and", "is", "of", "to", "in", "it", "on"]

/-- Modelled from the spec: the external Porter stemmer (§4.1), taken
as the identity, which agrees with Porter on the fixture vocabulary
actually queried here ("cat", "dog", "fox" are their own stems). -/
def specStem (s : String) : String := s

/-- The concrete preprocessing pipeline built from the modelled pieces. -/
def specPP : String → List String :=
  preprocess_text specTokenize specStopwords specStem

/-! ## Concrete fixtures for witnesses and counterexamples -/

/-- An index mapping the term "cat" to document "d" with weight 1/2. -/
def exIdx : Index := [("cat", [("d", (1 : ℚ) / 2)])]

def exDocs : List (String × Doc) := [("d", ⟨"cat", "f", []⟩)]

/-- Document A: every query term at least as frequent as in B, same
term set, but a different maximum raw term count. -/
def docsAB : List (String × Doc) :=
  [("A", ⟨"cat cat cat dog", "a.txt", []⟩), ("B", ⟨"cat dog", "b.txt", []⟩)]

/-- Documents with equal maximum raw term counts, for the amended
monotonicity statement. -/
def docsMono : List (String × Doc) :=
  [("A", ⟨"cat cat dog dog", "a.txt", []⟩), ("B", ⟨"cat dog dog", "b.txt", []⟩)]

/-- The end-to-end fixture document of the spec (§8). -/
def fixtureDocs : List (String × Doc) :=
  [("d1", ⟨"The quick brown fox jumps. The fox runs fast.", "d1.txt", []⟩)]

/-- An index that refers to a document id absent from `exDocs`. -/
def ghostIdx : Index := [("cat", [("ghost", 1)])]

/-- Expected formatted result for document "B" of `docsAB`. -/
def resB : SearchResult :=
  { doc_id := "B", filename := "b.txt", score := 2,
    snippets := ["**cat** **dog**"], metadata := [] }

/-- Expected formatted result for document "A" of `docsAB`. -/
def resA : SearchResult :=
  { doc_id := "A", filename := "a.txt", score := 4 / 3,
    snippets := ["**cat** **cat** **cat** **dog**"], metadata := [] }

/-- Expected formatted result for document "d" of `exDocs` under the
query "cat cat". -/
def resD : SearchResult :=
  { doc_id := "d", filename := "f", score := 1,
    snippets := ["**cat**"], metadata := [] }

/-! ## Association-list lemmas -/

theorem alookup_insert_self {α β : Type} [DecidableEq α] (k : α) (v : β)
    (l : List (α × β)) : alookup k (alistInsert k v l) = some v := by
  induction l with
  | nil => simp [alistInsert, alookup]
  | cons p rest ih =>
    obtain ⟨a, b⟩ := p
    by_cases h : a = k <;> simp [alistInsert, alookup, h, ih]

theorem alookup_insert_ne {α β : Type} [DecidableEq α] {k k' : α} (hne : k' ≠ k)
    (v : β) (l : List (α × β)) : alookup k' (alistInsert k v l) = alookup k' l := by
  induction l with
  | nil => simp [alistInsert, alookup, Ne.symm hne]
  | cons p rest ih =>
    obtain ⟨a, b⟩ := p
    by_cases h : a = k
    · subst h
      simp [alistInsert, alookup, Ne.symm hne]
    · simp [alistInsert, alookup, h, ih]

theorem mem_keys_insert {α β : Type} [DecidableEq α] {x k : α} (v : β)
    (l : List (α × β)) (hx : x ∈ (alistInsert k v l).map Prod.fst) :
    x = k ∨ x ∈ l.map Prod.fst := by
  induction l with
  | nil => simpa [alistInsert] using hx
  | cons p rest ih =>
    obtain ⟨a, b⟩ := p
    by_cases h : a = k
    · subst h
      simpa [alistInsert] using hx
    · simp only [alistInsert, if_neg h, List.map_cons, List.mem_cons] at hx
      rcases hx with hx | hx
      · exact Or.inr (by simp [hx])
      · rcases ih hx with h1 | h1
        · exact Or.inl h1
        · exact Or.inr (by simp [h1])

theorem nodup_keys_insert {α β : Type} [DecidableEq α] (k : α) (v : β)
    {l : List (α × β)} (h : (l.map Prod.fst).Nodup) :
    ((alistInsert k v l).map Prod.fst).Nodup := by
  induction l with
  | nil => simp [alistInsert]
  | cons p rest ih =>
    obtain ⟨a, b⟩ := p
    simp only [List.map_cons, List.nodup_cons] at h
    by_cases hk : a = k
    · subst hk
      simpa [alistInsert, List.nodup_cons] using h
    · simp only [alistInsert, if_neg hk, List.map_cons, List.nodup_cons]
      refine ⟨fun hmem => ?_, ih h.2⟩
      rcases mem_keys_insert v rest hmem with h1 | h1
      · exact hk h1
      · exact h.1 h1

theorem alookup_eq_none_iff {α β : Type} [DecidableEq α] (k : α)
    (l : List (α × β)) : alookup k l = none ↔ k ∉ l.map Prod.fst := by
  induction l with
  | nil => simp [alookup]
  | cons p rest ih =>
    obtain ⟨a, b⟩ := p
    by_cases h : a = k
    · subst h
      simp [alookup]
    · simp [alookup, h, ih, Ne.symm h]

theorem mem_of_alookup_eq_some {α β : Type} [DecidableEq α] {k : α} {v : β}
    {l : List (α × β)} (h : alookup k l = some v) : (k, v) ∈ l := by
  induction l with
  | nil => simp [alookup] at h
  | cons p rest ih =>
    obtain ⟨a, b⟩ := p
    by_cases ha : a = k
    · subst ha
      simp only [alookup, if_true, eq_self_iff_true, Option.some.injEq] at h
      subst h
      exact List.mem_cons_self _ _
    · simp only [alookup, if_neg ha] at h
      exact List.mem_cons_of_mem _ (ih h)

theorem alookup_of_mem_nodup {α β : Type} [DecidableEq α] {k : α} {v : β}
    {l : List (α × β)} (hnd : (l.map Prod.fst).Nodup) (hmem : (k, v) ∈ l) :
    alookup k l = some v := by
  induction l with
  | nil => simp at hmem
  | cons p rest ih =>
    obtain ⟨a, b⟩ := p
    simp only [List.map_cons, List.nodup_cons] at hnd
    rcases List.mem_cons.mp hmem with h | h
    · injection h with h1 h2
      subst h1; subst h2
      simp [alookup]
    · by_cases ha : a = k
      · subst ha
        exact absurd (List.mem_map_of_mem Prod.fst h) hnd.1
      · simpa [alookup, ha] using ih hnd.2 h

/-! ## Term-frequency counting lemmas -/

theorem alookup_bumpCount (tf : List (String × Nat)) (s t : String) :
    alookup t (bumpCount tf s) =
      if t = s then some ((alookup t tf).getD 0 + 1) else alookup t tf := by
  unfold bumpCount
  by_cases h : t = s
  · subst h
    cases hl : alookup t tf <;> simp [hl, alookup_insert_self]
  · cases hl : alookup s tf <;> simp [h, alookup_insert_ne h, hl]

theorem countTokensAux_lookup (ts : List String) :
    ∀ (tf : List (String × Nat)) (t : String),
      alookup t (countTokensAux tf ts) =
        if alookup t tf = none ∧ ts.count t = 0 then none
        else some ((alookup t tf).getD 0 + ts.count t) := by
  induction ts with
  | nil =>
    intro tf t
    cases h : alookup t tf <;> simp [countTokensAux, h]
  | cons s ts ih =>
    intro tf t
    by_cases h : t = s
    · subst h
      have hb := alookup_bumpCount tf t t
      rw [if_pos rfl] at hb
      simp only [countTokensAux, ih (bumpCount tf t) t, hb]
      simp [List.count_cons]
      omega
    · have hb := alookup_bumpCount tf s t
      rw [if_neg h] at hb
      simp only [countTokensAux, ih (bumpCount tf s) t, hb]
      have : (s :: ts).count t = ts.count t := by
        simp [List.count_cons, Ne.symm h, h]
      rw [this]

theorem countTokens_lookup (toks : List String) (t : String) :
    alookup t (countTokens toks) =
      if toks.count t = 0 then none else some (toks.count t) := by
  have h := countTokensAux_lookup toks [] t
  simpa [countTokens, alookup] using h

theorem countTokens_keys_nodup (toks : List String) :
    ((countTokens toks).map Prod.fst).Nodup := by
  have main : ∀ (ts : List String) (tf : List (String × Nat)),
      (tf.map Prod.fst).Nodup → ((countTokensAux tf ts).map Prod.fst).Nodup := by
    intro ts
    induction ts with
    | nil => intro tf h; simpa [countTokensAux] using h
    | cons s ts ih =>
      intro tf h
      refine ih (bumpCount tf s) ?_
      unfold bumpCount
      cases alookup s tf <;> exact nodup_keys_insert _ _ h
  exact main toks [] (by simp)

theorem countTokens_count_pos (toks : List String) :
    ∀ p ∈ countTokens toks, p.2 = toks.count p.1 ∧ 1 ≤ p.2 := by
  intro p hp
  have hl := alookup_of_mem_nodup (countTokens_keys_nodup toks) (by simpa using hp)
  rw [countTokens_lookup] at hl
  by_cases h : toks.count p.1 = 0
  · simp [h] at hl
  · rw [if_neg h] at hl
    have : toks.count p.1 = p.2 := by
      simpa using hl
    omega

theorem countTokens_ne_nil {toks : List String} (h : toks ≠ []) :
    countTokens toks ≠ [] := by
  intro hnil
  cases toks with
  | nil => exact h rfl
  | cons x xs =>
    have hc := countTokens_lookup (x :: xs) x
    have hpos : (x :: xs).count x ≠ 0 := by
      simp [List.count_cons]
    rw [if_neg hpos, hnil] at hc
    simp [alookup] at hc

/-! ## Maximum-frequency lemmas -/

theorem le_foldl_max (l : List Nat) : ∀ a : Nat, a ≤ l.foldl Nat.max a := by
  induction l with
  | nil => intro a; simp
  | cons x xs ih =>
    intro a
    calc a ≤ Nat.max a x := Nat.le_max_left a x
    _ ≤ xs.foldl Nat.max (Nat.max a x) := ih (Nat.max a x)
    _ = (x :: xs).foldl Nat.max a := by simp [List.foldl_cons]

theorem mem_le_foldl_max (l : List Nat) :
    ∀ (a x : Nat), x ∈ l → x ≤ l.foldl Nat.max a := by
  induction l with
  | nil => intro a x hx; simp at hx
  | cons y ys ih =>
    intro a x hx
    rcases List.mem_cons.mp hx with h | h
    · subst h
      calc x ≤ Nat.max a x := Nat.le_max_right a x
      _ ≤ ys.foldl Nat.max (Nat.max a x) := le_foldl_max ys (Nat.max a x)
      _ = (x :: ys).foldl Nat.max a := by simp [List.foldl_cons]
    · simpa [List.foldl_cons] using ih (Nat.max a y) x h

theorem foldl_max_eq_or_mem (l : List Nat) :
    ∀ a : Nat, l.foldl Nat.max a = a ∨ l.foldl Nat.max a ∈ l := by
  induction l with
  | nil => intro a; left; rfl
  | cons x xs ih =>
    intro a
    rcases ih (Nat.max a x) with h | h
    · rcases Nat.le_total a x with hax | hxa
      · right
        rw [List.foldl_cons, h]
        have hmax : Nat.max a x = x :=
          Nat.le_antisymm (Nat.max_le.mpr ⟨hax, Nat.le_refl x⟩) (Nat.le_max_right a x)
        rw [hmax]
        exact List.mem_cons_self _ _
      · left
        rw [List.foldl_cons, h]
        exact Nat.le_antisymm (Nat.max_le.mpr ⟨Nat.le_refl a, hxa⟩) (Nat.le_max_left a x)
    · right
      rw [List.foldl_cons]
      exact List.mem_cons_of_mem _ h

theorem maxFreq_ge {tf : List (String × Nat)} {p : String × Nat} (hp : p ∈ tf) :
    p.2 ≤ maxFreq tf := by
  cases tf with
  | nil => simp at hp
  | cons q rest =>
    have : p.2 ∈ ((q :: rest).map Prod.snd) := List.mem_map_of_mem Prod.snd hp
    simpa [maxFreq] using mem_le_foldl_max ((q :: rest).map Prod.snd) 0 p.2 this

theorem maxFreq_exists_of_pos {tf : List (String × Nat)} (hne : tf ≠ [])
    (hpos : ∀ p ∈ tf, 1 ≤ p.2) : ∃ p ∈ tf, p.2 = maxFreq tf := by
  cases tf with
  | nil => exact absurd rfl hne
  | cons q rest =>
    rcases foldl_max_eq_or_mem ((q :: rest).map Prod.snd) 0 with h | h
    · exfalso
      have hq : q.2 ≤ ((q :: rest).map Prod.snd).foldl Nat.max 0 :=
        mem_le_foldl_max _ 0 q.2 (List.mem_map_of_mem Prod.snd (List.mem_cons_self q rest))
      have : 1 ≤ q.2 := hpos q (List.mem_cons_self q rest)
      omega
    · rcases List.mem_map.mp h with ⟨p, hpmem, hpv⟩
      exact ⟨p, hpmem, by simpa [maxFreq] using hpv⟩

theorem one_le_maxFreq_countTokens (toks : List String) :
    1 ≤ maxFreq (countTokens toks) := by
  cases hct : countTokens toks with
  | nil => simp [maxFreq]
  | cons q rest =>
    have hq : 1 ≤ q.2 := by
      have := countTokens_count_pos toks q (by rw [hct]; exact List.mem_cons_self q rest)
      exact this.2
    have : q.2 ≤ maxFreq (q :: rest) := maxFreq_ge (List.mem_cons_self q rest)
    omega

/-! ## Index characterization -/

theorem lookup2_addTermEntry_ne_term {idx : Index} {t t0 : String} (hne : t ≠ t0)
    (d docId : String) (m n : Nat) :
    lookup2 t d (addTermEntry idx docId m t0 n) = lookup2 t d idx := by
  unfold lookup2 addTermEntry
  rw [alookup_insert_ne hne]

theorem lookup2_addTermEntry_ne_doc {idx : Index} {d docId : String}
    (hne : d ≠ docId) (t t0 : String) (m n : Nat) :
    lookup2 t d (addTermEntry idx docId m t0 n) = lookup2 t d idx := by
  by_cases ht : t = t0
  · subst ht
    unfold lookup2 addTermEntry
    rw [alookup_insert_self]
    cases hl : alookup t idx <;>
      simp [hl, Option.bind, alookup_insert_ne hne, alookup, Ne.symm hne]
  · exact lookup2_addTermEntry_ne_term ht _ _ _ _

theorem lookup2_addDocAux_ne_doc {d docId : String} (hne : d ≠ docId) (m : Nat)
    (tf : List (String × Nat)) :
    ∀ (idx : Index) (t : String),
      lookup2 t d (addDocAux docId m idx tf) = lookup2 t d idx := by
  induction tf with
  | nil => intro idx t; rfl
  | cons p tf ih =>
    obtain ⟨t0, n0⟩ := p
    intro idx t
    rw [addDocAux, ih, lookup2_addTermEntry_ne_doc hne]

theorem lookup2_addDocAux_notin {t : String} (docId : String) (m : Nat)
    {tf : List (String × Nat)} (hnotin : t ∉ tf.map Prod.fst) :
    ∀ idx : Index, lookup2 t docId (addDocAux docId m idx tf) = lookup2 t docId idx := by
  induction tf with
  | nil => intro idx; rfl
  | cons p tf ih =>
    obtain ⟨t0, n0⟩ := p
    intro idx
    simp only [List.map_cons, List.mem_cons] at hnotin
    push_neg at hnotin
    rw [addDocAux, ih hnotin.2, lookup2_addTermEntry_ne_term hnotin.1]

theorem lookup2_addDocAux_self {tf : List (String × Nat)}
    (hnd : (tf.map Prod.fst).Nodup) {t : String} {n : Nat} (hmem : (t, n) ∈ tf)
    (docId : String) (m : Nat) :
    ∀ idx : Index,
      lookup2 t docId (addDocAux docId m idx tf) = some ((n : ℚ) / (m : ℚ)) := by
  induction tf with
  | nil => simp at hmem
  | cons p tf ih =>
    obtain ⟨t0, n0⟩ := p
    intro idx
    simp only [List.map_cons, List.nodup_cons] at hnd
    rcases List.mem_cons.mp hmem with h | h
    · injection h with h1 h2
      subst h1; subst h2
      have hnotin : t ∉ tf.map Prod.fst := hnd.1
      rw [addDocAux, lookup2_addDocAux_notin docId m hnotin]
      unfold lookup2 addTermEntry
      rw [alookup_insert_self]
      simp [alookup_insert_self]
    · have ht : t ≠ t0 := by
        intro hq
        subst hq
        exact hnd.1 (List.mem_map_of_mem Prod.fst h)
      rw [addDocAux]
      exact ih hnd.2 h _

theorem lookup2_createAux_notin (pp : String → List String) {d : String}
    {docs : List (String × Doc)} (hnotin : d ∉ docs.map Prod.fst) :
    ∀ (idx : Index) (t : String),
      lookup2 t d (createAux pp idx docs) = lookup2 t d idx := by
  induction docs with
  | nil => intro idx t; rfl
  | cons p docs ih =>
    obtain ⟨d0, doc0⟩ := p
    intro idx t
    simp only [List.map_cons, List.mem_cons] at hnotin
    push_neg at hnotin
    rw [createAux, ih hnotin.2]
    exact lookup2_addDocAux_ne_doc hnotin.1 _ _ _ _

theorem lookup2_createAux (pp : String → List String) {docs : List (String × Doc)}
    (hnd : (docs.map Prod.fst).Nodup) {d : String} {doc : Doc}
    (hd : alookup d docs = some doc) :
    ∀ idx : Index, (∀ t' : String, lookup2 t' d idx = none) →
      ∀ t : String,
        lookup2 t d (createAux pp idx docs) = docWeight (pp doc.content) t := by
  induction docs with
  | nil => simp [alookup] at hd
  | cons p docs ih =>
    obtain ⟨d0, doc0⟩ := p
    intro idx hidx t
    simp only [List.map_cons, List.nodup_cons] at hnd
    by_cases hdd : d0 = d
    · subst hdd
      simp only [alookup, if_true, eq_self_iff_true, Option.some.injEq] at hd
      subst hd
      rw [createAux, lookup2_createAux_notin pp hnd.1]
      unfold addDocToIndex
      have hcount := countTokens_lookup (pp doc0.content) t
      cases hct : alookup t (countTokens (pp doc0.content)) with
      | some n =>
        have hmem : (t, n) ∈ countTokens (pp doc0.content) := mem_of_alookup_eq_some hct
        rw [lookup2_addDocAux_self (countTokens_keys_nodup _) hmem]
        rw [hct] at hcount
        by_cases hz : (pp doc0.content).count t = 0
        · rw [if_pos hz] at hcount
          exact absurd hcount (by simp)
        · rw [if_neg hz] at hcount
          have hn : (pp doc0.content).count t = n := by
            simpa using hcount.symm
          unfold docWeight
          rw [if_neg hz, hn]
      | none =>
        have hnotin : t ∉ (countTokens (pp doc0.content)).map Prod.fst :=
          (alookup_eq_none_iff t _).mp hct
        rw [lookup2_addDocAux_notin _ _ hnotin, hidx t]
        rw [hct] at hcount
        by_cases hz : (pp doc0.content).count t = 0
        · unfold docWeight
          rw [if_pos hz]
        · rw [if_neg hz] at hcount
          exact absurd hcount (by simp)
    · simp only [alookup, if_neg hdd] at hd
      rw [createAux]
      refine ih hnd.2 hd _ (fun t' => ?_) t
      unfold addDocToIndex
      rw [lookup2_addDocAux_ne_doc (fun h => hdd h.symm)]
      exact hidx t'

/-- Central characterization of the built index: the weight stored for
term `t` and document `d` is exactly the document's raw count of `t`
divided by the document's maximum raw count, absent iff the term does
not occur in the document (or the document is unknown). -/
theorem index_char (pp : String → List String) {docs : List (String × Doc)}
    (hnd : (docs.map Prod.fst).Nodup) (t d : String) :
    lookup2 t d (create_index pp docs) =
      (alookup d docs).bind (fun doc => docWeight (pp doc.content) t) := by
  cases hd : alookup d docs with
  | none =>
    have hnotin : d ∉ docs.map Prod.fst := (alookup_eq_none_iff d docs).mp hd
    rw [create_index, lookup2_createAux_notin pp hnotin]
    rfl
  | some doc =>
    rw [create_index, lookup2_createAux pp hnd hd [] (fun t' => rfl) t]
    rfl

/-! ## Posting lists of a built index have distinct document keys -/

/-- Every posting list reachable in the index has pairwise-distinct
document ids (as any Python dict does). -/
def PostingsNodup (idx : Index) : Prop :=
  ∀ t ps, alookup t idx = some ps → (ps.map Prod.fst).Nodup

theorem postingsNodup_addTermEntry {idx : Index} (h : PostingsNodup idx)
    (docId : String) (m : Nat) (t0 : String) (n0 : Nat) :
    PostingsNodup (addTermEntry idx docId m t0 n0) := by
  intro t ps hps
  by_cases ht : t = t0
  · subst ht
    unfold addTermEntry at hps
    rw [alookup_insert_self] at hps
    cases hl : alookup t idx with
    | none =>
      rw [hl] at hps
      simp only [Option.getD_none, Option.some.injEq] at hps
      subst hps
      simp [alistInsert]
    | some ps0 =>
      rw [hl] at hps
      simp only [Option.getD_some, Option.some.injEq] at hps
      subst hps
      exact nodup_keys_insert _ _ (h t ps0 hl)
  · unfold addTermEntry at hps
    rw [alookup_insert_ne ht] at hps
    exact h t ps hps

theorem postingsNodup_addDocAux (docId : String) (m : Nat)
    (tf : List (String × Nat)) :
    ∀ idx : Index, PostingsNodup idx → PostingsNodup (addDocAux docId m idx tf) := by
  induction tf with
  | nil => intro idx h; exact h
  | cons p tf ih =>
    obtain ⟨t0, n0⟩ := p
    intro idx h
    exact ih _ (postingsNodup_addTermEntry h docId m t0 n0)

theorem postingsNodup_createAux (pp : String → List String)
    (docs : List (String × Doc)) :
    ∀ idx : Index, PostingsNodup idx → PostingsNodup (createAux pp idx docs) := by
  induction docs with
  | nil => intro idx h; exact h
  | cons p docs ih =>
    obtain ⟨d0, doc0⟩ := p
    intro idx h
    exact ih _ (postingsNodup_addDocAux _ _ _ _ h)

theorem postingsNodup_create_index (pp : String → List String)
    (docs : List (String × Doc)) : PostingsNodup (create_index pp docs) := by
  refine postingsNodup_createAux pp docs [] ?_
  intro t ps hps
  simp [alookup] at hps

/-! ## Scoring lemmas -/

theorem addPostings_lookup {ps : List (String × ℚ)}
    (hnd : (ps.map Prod.fst).Nodup) :
    ∀ (scores : List (String × ℚ)) (d : String),
      (alookup d (addPostings scores ps)).getD 0 =
        (alookup d scores).getD 0 + (alookup d ps).getD 0 := by
  induction ps with
  | nil => intro scores d; simp [addPostings, alookup]
  | cons p ps ih =>
    obtain ⟨d0, w0⟩ := p
    intro scores d
    simp only [List.map_cons, List.nodup_cons] at hnd
    rw [addPostings, ih hnd.2]
    by_cases hd : d = d0
    · subst hd
      have hnotin : alookup d ps = none :=
        (alookup_eq_none_iff d ps).mpr hnd.1
      rw [alookup_insert_self, hnotin]
      simp [alookup]
    · rw [alookup_insert_ne hd]
      simp [alookup, Ne.symm hd]

theorem scoreDocs_lookup {idx : Index} (hpn : PostingsNodup idx)
    (qt : List String) :
    ∀ (scores : List (String × ℚ)) (d : String),
      (alookup d (scoreDocs idx qt scores)).getD 0 =
        (alookup d scores).getD 0 + multiScore idx d qt := by
  induction qt with
  | nil => intro scores d; simp [scoreDocs, multiScore]
  | cons t ts ih =>
    intro scores d
    rw [scoreDocs]
    cases hl : alookup t idx with
    | none =>
      rw [ih]
      simp [multiScore, lookup2, hl]
    | some ps =>
      rw [ih, addPostings_lookup (hpn t ps hl)]
      simp [multiScore, lookup2, hl]
      ring

theorem addPostings_keys :
    ∀ (ps scores : List (String × ℚ)) (d : String),
      d ∈ (addPostings scores ps).map Prod.fst →
        d ∈ scores.map Prod.fst ∨ d ∈ ps.map Prod.fst := by
  intro ps
  induction ps with
  | nil => intro scores d h; exact Or.inl (by simpa [addPostings] using h)
  | cons p ps ih =>
    obtain ⟨d0, w0⟩ := p
    intro scores d h
    rw [addPostings] at h
    rcases ih _ d h with h1 | h1
    · rcases mem_keys_insert _ _ h1 with h2 | h2
      · exact Or.inr (by simp [h2])
      · exact Or.inl h2
    · exact Or.inr (by simp [h1])

theorem scoreDocs_keys {idx : Index} (qt : List String) :
    ∀ (scores : List (String × ℚ)) (d : String),
      d ∈ (scoreDocs idx qt scores).map Prod.fst →
        d ∈ scores.map Prod.fst ∨
          ∃ t ∈ qt, ∃ ps, alookup t idx = some ps ∧ d ∈ ps.map Prod.fst := by
  induction qt with
  | nil => intro scores d h; exact Or.inl (by simpa [scoreDocs] using h)
  | cons t ts ih =>
    intro scores d h
    rw [scoreDocs] at h
    cases hl : alookup t idx with
    | none =>
      rw [hl] at h
      rcases ih _ d h with h1 | ⟨t', ht', ps, hps, hd⟩
      · exact Or.inl h1
      · exact Or.inr ⟨t', List.mem_cons_of_mem _ ht', ps, hps, hd⟩
    | some ps =>
      rw [hl] at h
      rcases ih _ d h with h1 | ⟨t', ht', ps', hps, hd⟩
      · rcases addPostings_keys ps scores d h1 with h2 | h2
        · exact Or.inl h2
        · exact Or.inr ⟨t, List.mem_cons_self _ _, ps, hl, h2⟩
      · exact Or.inr ⟨t', List.mem_cons_of_mem _ ht', ps', hps, hd⟩

theorem addPostings_keys_nodup :
    ∀ (ps scores : List (String × ℚ)),
      (scores.map Prod.fst).Nodup → ((addPostings scores ps).map Prod.fst).Nodup := by
  intro ps
  induction ps with
  | nil => intro scores h; simpa [addPostings] using h
  | cons p ps ih =>
    obtain ⟨d0, w0⟩ := p
    intro scores h
    rw [addPostings]
    exact ih _ (nodup_keys_insert _ _ h)

theorem scoreDocs_keys_nodup {idx : Index} (qt : List String) :
    ∀ scores : List (String × ℚ),
      (scores.map Prod.fst).Nodup → ((scoreDocs idx qt scores).map Prod.fst).Nodup := by
  induction qt with
  | nil => intro scores h; simpa [scoreDocs] using h
  | cons t ts ih =>
    intro scores h
    rw [scoreDocs]
    cases hl : alookup t idx with
    | none => exact ih _ h
    | some ps => exact ih _ (addPostings_keys_nodup ps scores h)

/-! ## Sorting lemmas -/

theorem mem_insertDesc {x z : String × ℚ} :
    ∀ l : List (String × ℚ), z ∈ insertDesc x l → z = x ∨ z ∈ l := by
  intro l
  induction l with
  | nil => intro h; simpa [insertDesc] using h
  | cons y ys ih =>
    intro h
    rw [insertDesc] at h
    by_cases hc : y.2 ≤ x.2
    · rw [if_pos hc] at h
      rcases List.mem_cons.mp h with h1 | h1
      · exact Or.inl h1
      · exact Or.inr h1
    · rw [if_neg hc] at h
      rcases List.mem_cons.mp h with h1 | h1
      · exact Or.inr (by simp [h1])
      · rcases ih h1 with h2 | h2
        · exact Or.inl h2
        · exact Or.inr (List.mem_cons_of_mem _ h2)

theorem mem_sortDesc {z : String × ℚ} :
    ∀ l : List (String × ℚ), z ∈ sortDesc l → z ∈ l := by
  intro l
  induction l with
  | nil => intro h; simp [sortDesc] at h
  | cons y ys ih =>
    intro h
    have h' : z ∈ insertDesc y (sortDesc ys) := by
      simpa [sortDesc] using h
    rcases mem_insertDesc _ h' with h1 | h1
    · exact h1 ▸ List.mem_cons_self _ _
    · exact List.mem_cons_of_mem _ (ih h1)

theorem length_insertDesc (x : String × ℚ) :
    ∀ l : List (String × ℚ), (insertDesc x l).length = l.length + 1 := by
  intro l
  induction l with
  | nil => rfl
  | cons y ys ih =>
    rw [insertDesc]
    by_cases hc : y.2 ≤ x.2
    · rw [if_pos hc]; rfl
    · rw [if_neg hc]
      simp [ih]

theorem length_sortDesc :
    ∀ l : List (String × ℚ), (sortDesc l).length = l.length := by
  intro l
  induction l with
  | nil => rfl
  | cons y ys ih =>
    show (insertDesc y (sortDesc ys)).length = ys.length + 1
    rw [length_insertDesc, ih]

theorem pairwise_insertDesc (x : String × ℚ) :
    ∀ l : List (String × ℚ),
      l.Pairwise (fun a b => b.2 ≤ a.2) →
        (insertDesc x l).Pairwise (fun a b => b.2 ≤ a.2) := by
  intro l
  induction l with
  | nil => intro _; simp [insertDesc]
  | cons y ys ih =>
    intro h
    rw [List.pairwise_cons] at h
    rw [insertDesc]
    by_cases hc : y.2 ≤ x.2
    · rw [if_pos hc]
      refine List.Pairwise.cons ?_ (List.Pairwise.cons h.1 h.2)
      intro z hz
      rcases List.mem_cons.mp hz with h1 | h1
      · rw [h1]; exact hc
      · exact le_trans (h.1 z h1) hc
    · rw [if_neg hc]
      refine List.Pairwise.cons ?_ (ih h.2)
      intro z hz
      rcases mem_insertDesc _ hz with h1 | h1
      · rw [h1]; exact le_of_lt (lt_of_not_le hc)
      · exact h.1 z h1

theorem pairwise_sortDesc (l : List (String × ℚ)) :
    (sortDesc l).Pairwise (fun a b => b.2 ≤ a.2) := by
  induction l with
  | nil => simp [sortDesc]
  | cons y ys ih =>
    show (insertDesc y (sortDesc ys)).Pairwise (fun a b => b.2 ≤ a.2)
    exact pairwise_insertDesc y _ ih

/-! ## Result-formatting lemmas -/

theorem formatResults_length {documents : List (String × Doc)} {qt : List String} :
    ∀ {l : List (String × ℚ)} {res : List SearchResult},
      formatResults documents qt l = some res → res.length = l.length := by
  intro l
  induction l with
  | nil =>
    intro res h
    simp only [formatResults, Option.some.injEq] at h
    subst h; rfl
  | cons p rest ih =>
    obtain ⟨d, s⟩ := p
    intro res h
    rw [formatResults] at h
    cases hd : alookup d documents with
    | none => rw [hd] at h; exact absurd h (by simp)
    | some doc =>
      rw [hd] at h
      cases hr : formatResults documents qt rest with
      | none => rw [hr] at h; exact absurd h (by simp)
      | some rs =>
        rw [hr] at h
        simp only [Option.some.injEq] at h
        subst h
        simp [ih hr]

theorem formatResults_mem {documents : List (String × Doc)} {qt : List String} :
    ∀ {l : List (String × ℚ)} {res : List SearchResult},
      formatResults documents qt l = some res →
        ∀ r ∈ res, ∃ p ∈ l, r.doc_id = p.1 ∧ r.score = p.2 := by
  intro l
  induction l with
  | nil =>
    intro res h r hr
    simp only [formatResults, Option.some.injEq] at h
    subst h
    simp at hr
  | cons p rest ih =>
    obtain ⟨d, s⟩ := p
    intro res h r hr
    rw [formatResults] at h
    cases hd : alookup d documents with
    | none => rw [hd] at h; exact absurd h (by simp)
    | some doc =>
      rw [hd] at h
      cases hfr : formatResults documents qt rest with
      | none => rw [hfr] at h; exact absurd h (by simp)
      | some rs =>
        rw [hfr] at h
        simp only [Option.some.injEq] at h
        subst h
        rcases List.mem_cons.mp hr with h1 | h1
        · subst h1
          exact ⟨(d, s), List.mem_cons_self _ _, rfl, rfl⟩
        · rcases ih hfr r h1 with ⟨p, hp, h2, h3⟩
          exact ⟨p, List.mem_cons_of_mem _ hp, h2, h3⟩

theorem formatResults_none {documents : List (String × Doc)} {qt : List String}
    {d : String} {s : ℚ} :
    ∀ l : List (String × ℚ), (d, s) ∈ l → alookup d documents = none →
      formatResults documents qt l = none := by
  intro l
  induction l with
  | nil => intro h _; simp at h
  | cons p rest ih =>
    obtain ⟨d0, s0⟩ := p
    intro hmem hd
    rw [formatResults]
    rcases List.mem_cons.mp hmem with h1 | h1
    · injection h1 with h2 h3
      subst h2
      rw [hd]
    · cases hd0 : alookup d0 documents with
      | none => rfl
      | some doc0 => rw [ih h1 hd]

theorem formatResults_scores {documents : List (String × Doc)} {qt : List String} :
    ∀ {l : List (String × ℚ)} {res : List SearchResult},
      formatResults documents qt l = some res →
        res.map SearchResult.score = l.map Prod.snd := by
  intro l
  induction l with
  | nil =>
    intro res h
    simp only [formatResults, Option.some.injEq] at h
    subst h; rfl
  | cons p rest ih =>
    obtain ⟨d, s⟩ := p
    intro res h
    rw [formatResults] at h
    cases hd : alookup d documents with
    | none => rw [hd] at h; exact absurd h (by simp)
    | some doc =>
      rw [hd] at h
      cases hfr : formatResults documents qt rest with
      | none => rw [hfr] at h; exact absurd h (by simp)
      | some rs =>
        rw [hfr] at h
        simp only [Option.some.injEq] at h
        subst h
        simp [ih hfr]

/-! ## Claim theorems -/

/-- C9: `create_index` is a pure, deterministic function of the document
mapping — building twice from unchanged documents yields structurally
identical indexes (in this stateless embedding the build depends on
nothing but its arguments) — and an empty document mapping yields an
empty index without error. -/
theorem C9_rebuild_idempotent (pp : String → List String)
    (docs : List (String × Doc)) :
    create_index pp docs = create_index pp docs ∧ create_index pp [] = [] :=
  ⟨rfl, rfl⟩

/-- C10: for every raw text, normalized query token list, `num_snippets ≥ 1`
and `max_length`, `extract_snippets` returns between 1 and
`max num_snippets 1` snippets: the fallback paths return exactly one
snippet, and the sentence path returns at least one and at most
`num_snippets`. -/
theorem C10_snippet_count (content : String) (query_terms : List String)
    (num_snippets max_length : Nat) (h : 1 ≤ num_snippets) :
    1 ≤ (extract_snippets content query_terms num_snippets max_length).length ∧
      (extract_snippets content query_terms num_snippets max_length).length ≤
        Nat.max num_snippets 1 := by
  have hmax : 1 ≤ Nat.max num_snippets 1 := Nat.le_max_right _ _
  simp only [extract_snippets, extractSnippetsCore]
  split_ifs with h1 h2
  · exact ⟨by simp, by simp [hmax]⟩
  · exact ⟨by simp, by simp [hmax]⟩
  · have hm : matchingSentences content.data
        (collectTerms content.data (query_terms.map String.data)) ≠ [] := by
      simpa using h2
    have hlen : 1 ≤ (matchingSentences content.data
        (collectTerms content.data (query_terms.map String.data))).length :=
      List.length_pos.mpr hm
    simp only [List.length_map, List.length_take]
    constructor
    · exact le_min h hlen
    · exact le_trans (Nat.min_le_left _ _) (Nat.le_max_left _ _)

/-- C10 witness: concrete instance of the bound at the end-to-end
fixture text with three requested snippets. -/
theorem C10_snippet_count_witness :
    1 ≤ 3 ∧
      (1 ≤ (extract_snippets "The quick brown fox jumps. The fox runs fast."
              ["fox"] 3 200).length ∧
        (extract_snippets "The quick brown fox jumps. The fox runs fast."
              ["fox"] 3 200).length ≤ Nat.max 3 1) :=
  ⟨by decide, C10_snippet_count _ _ _ _ (by decide)⟩

/-- C3 counterexample: for the two-character text "hi" (shorter than
`max_length = 200`) and a query token matching nothing, the fallback
snippet is "hi..." — the ellipsis is appended even though the text was
not truncated, contradicting the claim that it is appended only upon
truncation. -/
theorem C3_counterexample :
    extract_snippets "hi" ["zzz"] 3 200 = ["hi..."] ∧ ("hi" : String).length ≤ 200 ∧
      ("hi..." : String) ≠ "hi" := by
  refine ⟨by decide, by decide, by decide⟩

/-- C3 (amended): when the prefix patterns match no surface form in the
text, or surface forms exist but no sentence contains one,
`extract_snippets` returns exactly one snippet consisting of the first
`max_length` characters of the raw text with the ellipsis
unconditionally appended (even when the text was not truncated). -/
theorem C3_fallback (content : String) (query_terms : List String)
    (num_snippets max_length : Nat)
    (h : collectTerms content.data (query_terms.map String.data) = [] ∨
      matchingSentences content.data
        (collectTerms content.data (query_terms.map String.data)) = []) :
    extract_snippets content query_terms num_snippets max_length =
      [String.mk (content.data.take max_length ++ ellipsis)] := by
  simp only [extract_snippets, extractSnippetsCore]
  rcases h with h | h
  · rw [h]
    simp
  · rw [h]
    split_ifs with h1 h2
    · simp
    · simp
    · simp at h2

/-- C3 witness: the amended fallback behavior evaluated on the concrete
no-match input. -/
theorem C3_fallback_witness :
    collectTerms ("hi" : String).data ((["zzz"] : List String).map String.data) = [] ∧
      extract_snippets "hi" ["zzz"] 3 200 =
        [String.mk (("hi" : String).data.take 200 ++ ellipsis)] :=
  ⟨by decide, C3_fallback "hi" ["zzz"] 3 200 (Or.inl (by decide))⟩

/-- C7 counterexample: with raw text "run running" and the stemmed query
token "run", the collected surface forms are "run" and "running"; the
returned snippet is "**run** **run**ning", in which the occurrence of the
surface form "running" is not wrapped in the paired markers (the string
"**running**" does not occur), because the per-term substitutions are
applied sequentially and the earlier "run" substitution destroys the
later "running" match. -/
theorem C7_counterexample :
    extract_snippets "run running" ["run"] 3 200 = ["**run** **run**ning"] ∧
      ("running" : String).data ∈
        collectTerms ("run running" : String).data ((["run"] : List String).map String.data) ∧
      containsSub ("running" : String).data ("run running" : String).data = true ∧
      containsSub ("**running**" : String).data ("**run** **run**ning" : String).data = false := by
  refine ⟨by decide, by decide, by decide, by decide⟩

unseal Rat.add Rat.mul Rat.inv Rat.sub in
/-- C7 (amended): highlighting substitutes the collected surface forms
one term at a time, so an occurrence of one surface form can be left
unwrapped when another surface form overlaps it; in the end-to-end
fixture, where "fox" is the single surface form, d1 is the only and top
result and both occurrences of "fox" (one per qualifying sentence)
carry the paired markers. -/
theorem C7_fixture :
    search_documents specTokenize specStopwords specStem "fox"
        (create_index specPP fixtureDocs) fixtureDocs 10 =
      some [{ doc_id := "d1", filename := "d1.txt", score := 1,
              snippets := ["The quick brown **fox** jumps.", "The **fox** runs fast."],
              metadata := [] }] := by
  decide

/-- Helper: the concrete index `exIdx` has duplicate-free posting keys. -/
theorem exIdx_postingsNodup : PostingsNodup exIdx := by
  intro t ps hps
  simp only [exIdx, alookup] at hps
  by_cases h : ("cat" : String) = t
  · rw [if_pos h] at hps
    injection hps with h2
    subst h2
    simp
  · rw [if_neg h] at hps
    cases hps

/-- C5: `search_documents` returns a document only if at least one
normalized query token is mapped to that document in the index; a query
whose normalization yields no tokens (in particular empty or
whitespace-only queries) returns the empty result list, and documents
with zero overlap never appear regardless of `max_results`. -/
theorem C5_zero_overlap (tokenize : String → List String)
    (stop_words : List String) (stem : String → String) (query : String)
    (index : Index) (documents : List (String × Doc)) (max_results : Nat) :
    (preprocess_text tokenize stop_words stem query = [] →
      search_documents tokenize stop_words stem query index documents
        max_results = some []) ∧
    (∀ (res : List SearchResult) (r : SearchResult),
      search_documents tokenize stop_words stem query index documents
          max_results = some res →
      r ∈ res →
      ∃ t ∈ preprocess_text tokenize stop_words stem query,
        ∃ ps, alookup t index = some ps ∧ r.doc_id ∈ ps.map Prod.fst) := by
  constructor
  · intro h
    simp only [search_documents]
    rw [h]
    rfl
  · intro res r hs hr
    simp only [search_documents] at hs
    by_cases hq : (preprocess_text tokenize stop_words stem query).isEmpty
    · rw [if_pos hq] at hs
      simp only [Option.some.injEq] at hs
      subst hs
      simp at hr
    · rw [if_neg hq] at hs
      rcases formatResults_mem hs r hr with ⟨p, hp, hid, _⟩
      have hp2 := mem_sortDesc _ (List.mem_of_mem_take hp)
      have hp3 : p.1 ∈ (scoreDocs index
          (preprocess_text tokenize stop_words stem query) []).map Prod.fst :=
        List.mem_map_of_mem Prod.fst hp2
      rcases scoreDocs_keys _ _ _ hp3 with h1 | ⟨t, ht, ps, hps, hd⟩
      · simp at h1
      · exact ⟨t, ht, ps, hps, hid ▸ hd⟩

/-- C5 witness: the empty query yields no tokens under the modelled
normalizer and the search returns the empty result list. -/
theorem C5_zero_overlap_witness :
    preprocess_text specTokenize specStopwords specStem "" = [] ∧
      search_documents specTokenize specStopwords specStem "" exIdx exDocs 10 =
        some [] :=
  ⟨by decide,
    (C5_zero_overlap specTokenize specStopwords specStem "" exIdx exDocs 10).1
      (by decide)⟩

/-- C8: when the index maps a query token to a document id that is
absent from the documents mapping and that id survives ranking and
truncation, the search fails fast (the `documents[doc_id]` lookup
raises, modelled as `none`) instead of skipping the document. -/
theorem C8_fail_fast (tokenize : String → List String)
    (stop_words : List String) (stem : String → String) (query : String)
    (index : Index) (documents : List (String × Doc)) (max_results : Nat)
    (d : String) (s : ℚ)
    (hq : preprocess_text tokenize stop_words stem query ≠ [])
    (hsurv : (d, s) ∈ (sortDesc (scoreDocs index
        (preprocess_text tokenize stop_words stem query) [])).take max_results)
    (habs : alookup d documents = none) :
    search_documents tokenize stop_words stem query index documents
      max_results = none := by
  simp only [search_documents]
  have hne : ¬ (preprocess_text tokenize stop_words stem query).isEmpty = true := by
    simpa [List.isEmpty_iff] using hq
  rw [if_neg hne]
  exact formatResults_none _ hsurv habs

unseal Rat.add Rat.mul Rat.inv Rat.sub in
/-- C8 witness: the survivor "ghost" is indexed for the query token but
missing from the documents mapping, and the search returns the failure
value. -/
theorem C8_fail_fast_witness :
    search_documents specTokenize specStopwords specStem "cat" ghostIdx exDocs
      10 = none :=
  C8_fail_fast specTokenize specStopwords specStem "cat" ghostIdx exDocs 10
    "ghost" 1 (by decide) (by decide) (by decide)

/-- C6: with `max_results = k` the search returns at most `k` results
(exactly zero when `k = 0`), and the returned results are ordered by
non-increasing score. -/
theorem C6_max_results (tokenize : String → List String)
    (stop_words : List String) (stem : String → String) (query : String)
    (index : Index) (documents : List (String × Doc)) (k : Nat) :
    (∀ res : List SearchResult,
      search_documents tokenize stop_words stem query index documents k =
          some res →
        res.length ≤ k ∧ res.Pairwise (fun a b => b.score ≤ a.score)) ∧
    search_documents tokenize stop_words stem query index documents 0 =
      some [] := by
  constructor
  · intro res hs
    simp only [search_documents] at hs
    by_cases hq : (preprocess_text tokenize stop_words stem query).isEmpty
    · rw [if_pos hq] at hs
      simp only [Option.some.injEq] at hs
      subst hs
      exact ⟨by simp, by simp⟩
    · rw [if_neg hq] at hs
      constructor
      · rw [formatResults_length hs, List.length_take]
        exact Nat.min_le_left _ _
      · have hsorted := pairwise_sortDesc
          (scoreDocs index (preprocess_text tokenize stop_words stem query) [])
        have htake := hsorted.sublist (List.take_sublist k _)
        have hmap := formatResults_scores hs
        have hsc : (res.map SearchResult.score).Pairwise (fun x y : ℚ => y ≤ x) := by
          rw [hmap]
          exact List.pairwise_map.mpr htake
        exact List.pairwise_map.mp hsc
  · simp only [search_documents]
    by_cases hq : (preprocess_text tokenize stop_words stem query).isEmpty
    · rw [if_pos hq]
    · rw [if_neg hq, List.take_zero]
      rfl

unseal Rat.add Rat.mul Rat.inv Rat.sub in
/-- C6 witness: a concrete two-result search obeys the bound and the
non-increasing score order. -/
theorem C6_max_results_witness :
    ([resB, resA] : List SearchResult).length ≤ 10 ∧
      ([resB, resA] : List SearchResult).Pairwise (fun a b => b.score ≤ a.score) :=
  (C6_max_results specTokenize specStopwords specStem "cat dog"
      (create_index specPP docsAB) docsAB 10).1 [resB, resA] (by decide)

unseal Rat.add Rat.mul Rat.inv Rat.sub in
/-- C1 counterexample: for the query "cat cat" (the same token twice
after normalization) and an index weighting "cat" at 1/2 for document
"d", `search_documents` reports score 1 = 1/2 + 1/2 — each occurrence
contributes — whereas the claim's sum over unique query tokens is 1/2.
The deduplicated `query_vector` the code builds is never used. -/
theorem C1_counterexample :
    search_documents specTokenize specStopwords specStem "cat cat" exIdx exDocs
        10 = some [resD] ∧
      dedupScore exIdx "d"
        (preprocess_text specTokenize specStopwords specStem "cat cat") = 1 / 2 ∧
      resD.score ≠ 1 / 2 := by
  refine ⟨by decide, by decide, by decide⟩

/-- C1 (amended): the score attached to each result equals the sum over
ALL query token occurrences, with multiplicity, of that token's indexed
weight for the document (0 when the token or document is absent), and no
inverse-document-frequency weighting is applied; repeated occurrences of
a token do increase the score. -/
theorem C1_score_sum (tokenize : String → List String)
    (stop_words : List String) (stem : String → String) (query : String)
    (index : Index) (documents : List (String × Doc)) (k : Nat)
    (hpn : PostingsNodup index) :
    ∀ (res : List SearchResult) (r : SearchResult),
      search_documents tokenize stop_words stem query index documents k =
          some res →
      r ∈ res →
      r.score = multiScore index r.doc_id
        (preprocess_text tokenize stop_words stem query) := by
  intro res r hs hr
  simp only [search_documents] at hs
  by_cases hq : (preprocess_text tokenize stop_words stem query).isEmpty
  · rw [if_pos hq] at hs
    simp only [Option.some.injEq] at hs
    subst hs
    simp at hr
  · rw [if_neg hq] at hs
    rcases formatResults_mem hs r hr with ⟨p, hp, hid, hscore⟩
    have hp2 := mem_sortDesc _ (List.mem_of_mem_take hp)
    have hnd : ((scoreDocs index
        (preprocess_text tokenize stop_words stem query) []).map Prod.fst).Nodup :=
      scoreDocs_keys_nodup _ _ (by simp)
    have hlook := alookup_of_mem_nodup hnd hp2
    have hval := scoreDocs_lookup hpn
      (preprocess_text tokenize stop_words stem query) [] p.1
    rw [hlook] at hval
    simp only [alookup, Option.getD_some, Option.getD_none, zero_add] at hval
    rw [hscore, hid, hval]

unseal Rat.add Rat.mul Rat.inv Rat.sub in
/-- C1 witness: the reported score 1 for document "d" equals the
multiplicity-weighted sum over the two query token occurrences. -/
theorem C1_score_sum_witness :
    resD.score = multiScore exIdx resD.doc_id
      (preprocess_text specTokenize specStopwords specStem "cat cat") :=
  C1_score_sum specTokenize specStopwords specStem "cat cat" exIdx exDocs 10
    exIdx_postingsNodup [resD] resD (by decide) (by decide)

/-- Helper: value form of `index_char` with the 0 default. -/
theorem lookup2_getD_create_index (pp : String → List String)
    {docs : List (String × Doc)} (hnd : (docs.map Prod.fst).Nodup)
    {d : String} {doc : Doc} (hd : alookup d docs = some doc) (t : String) :
    (lookup2 t d (create_index pp docs)).getD 0 =
      ((pp doc.content).count t : ℚ) /
        (maxFreq (countTokens (pp doc.content)) : ℚ) := by
  rw [index_char pp hnd, hd]
  have hb : ((some doc).bind fun doc => docWeight (pp doc.content) t) =
      docWeight (pp doc.content) t := rfl
  rw [hb]
  unfold docWeight
  by_cases hz : (pp doc.content).count t = 0
  · rw [if_pos hz, hz]
    simp
  · rw [if_neg hz]
    rfl

/-- C4: every weight in the built index lies in (0, 1] and equals the
document's raw count of the term divided by the document's maximum raw
term count; every document producing at least one token has some
indexed term of weight exactly 1; and a document whose normalization
produces no tokens contributes no entries. -/
theorem C4_index_weights (pp : String → List String)
    (docs : List (String × Doc)) (hnd : (docs.map Prod.fst).Nodup) :
    (∀ t ps d w, alookup t (create_index pp docs) = some ps →
        alookup d ps = some w →
        0 < w ∧ w ≤ 1 ∧
          ∃ doc, alookup d docs = some doc ∧
            w = ((pp doc.content).count t : ℚ) /
              (maxFreq (countTokens (pp doc.content)) : ℚ)) ∧
    (∀ d doc, alookup d docs = some doc → pp doc.content ≠ [] →
        ∃ t ps, alookup t (create_index pp docs) = some ps ∧
          alookup d ps = some 1) ∧
    (∀ d doc, alookup d docs = some doc → pp doc.content = [] →
        ∀ t ps, alookup t (create_index pp docs) = some ps →
          alookup d ps = none) := by
  refine ⟨?_, ?_, ?_⟩
  · intro t ps d w hps hw
    have h2 : lookup2 t d (create_index pp docs) = some w := by
      unfold lookup2
      rw [hps]
      exact hw
    rw [index_char pp hnd] at h2
    cases hd : alookup d docs with
    | none =>
      rw [hd] at h2
      cases h2
    | some doc =>
      rw [hd] at h2
      have h3 : docWeight (pp doc.content) t = some w := h2
      unfold docWeight at h3
      by_cases hz : (pp doc.content).count t = 0
      · rw [if_pos hz] at h3
        cases h3
      · rw [if_neg hz] at h3
        injection h3 with h4
        have hcpos : 0 < (pp doc.content).count t := Nat.pos_of_ne_zero hz
        have hmem : (t, (pp doc.content).count t) ∈ countTokens (pp doc.content) := by
          apply mem_of_alookup_eq_some
          rw [countTokens_lookup, if_neg hz]
        have hle : (pp doc.content).count t ≤
            maxFreq (countTokens (pp doc.content)) := maxFreq_ge hmem
        have hmpos : 0 < maxFreq (countTokens (pp doc.content)) :=
          one_le_maxFreq_countTokens _
        subst h4
        refine ⟨div_pos (by exact_mod_cast hcpos) (by exact_mod_cast hmpos),
          ?_, ⟨doc, rfl, rfl⟩⟩
        rw [div_le_one (by exact_mod_cast hmpos)]
        exact_mod_cast hle
  · intro d doc hd hne
    have hctne : countTokens (pp doc.content) ≠ [] := countTokens_ne_nil hne
    have hpos : ∀ p ∈ countTokens (pp doc.content), 1 ≤ p.2 := by
      intro p hp
      exact (countTokens_count_pos _ p hp).2
    rcases maxFreq_exists_of_pos hctne hpos with ⟨p, hpmem, hpmax⟩
    have hpcount := (countTokens_count_pos _ p hpmem).1
    have h1le : 1 ≤ p.2 := hpos p hpmem
    have hmpos : 0 < maxFreq (countTokens (pp doc.content)) :=
      one_le_maxFreq_countTokens _
    have h2 : lookup2 p.1 d (create_index pp docs) = some 1 := by
      rw [index_char pp hnd, hd]
      show docWeight (pp doc.content) p.1 = some 1
      unfold docWeight
      have hz : (pp doc.content).count p.1 ≠ 0 := by
        rw [← hpcount]
        omega
      rw [if_neg hz]
      congr 1
      rw [← hpcount, hpmax]
      exact div_self (Nat.cast_ne_zero.mpr (by omega))
    cases hips : alookup p.1 (create_index pp docs) with
    | none =>
      unfold lookup2 at h2
      rw [hips] at h2
      cases h2
    | some ps =>
      refine ⟨p.1, ps, hips, ?_⟩
      unfold lookup2 at h2
      rw [hips] at h2
      exact h2
  · intro d doc hd h0 t ps hps
    have h2 := index_char pp hnd t d
    rw [hd] at h2
    unfold lookup2 at h2
    rw [hps] at h2
    have h2' : alookup d ps = docWeight (pp doc.content) t := h2
    have h3 : docWeight (pp doc.content) t = none := by
      unfold docWeight
      rw [h0]
      simp
    rw [h3] at h2'
    exact h2'

unseal Rat.add Rat.mul Rat.inv Rat.sub in
/-- C4 witness: in the two-document fixture the weight of term "cat" for
document "A" is 1, positive, at most 1, and equal to its raw count 3
divided by the maximum raw count 3. -/
theorem C4_index_weights_witness :
    0 < (1 : ℚ) ∧ (1 : ℚ) ≤ 1 ∧
      ∃ doc, alookup "A" docsAB = some doc ∧
        (1 : ℚ) = ((specPP doc.content).count "cat" : ℚ) /
          (maxFreq (countTokens (specPP doc.content)) : ℚ) :=
  (C4_index_weights specPP docsAB (by decide)).1 "cat" [("A", 1), ("B", 1)] "A" 1
    (by decide) (by decide)

unseal Rat.add Rat.mul Rat.inv Rat.sub in
/-- C2 counterexample: document A ("cat cat cat dog") contains every
query term of "cat dog" at least as often as document B ("cat dog") and
the two documents have the same term set, yet A scores 4/3 while B
scores 2, so A's score is strictly below B's: per-document
normalization by the maximum term frequency breaks raw-frequency
monotonicity. -/
theorem C2_counterexample :
    specPP "cat cat cat dog" = ["cat", "cat", "cat", "dog"] ∧
      specPP "cat dog" = ["cat", "dog"] ∧
      search_documents specTokenize specStopwords specStem "cat dog"
          (create_index specPP docsAB) docsAB 10 = some [resB, resA] ∧
      resA.score < resB.score := by
  refine ⟨by decide, by decide, by decide, by decide⟩

/-- C2 (amended): raw-frequency dominance over the query terms does
imply score dominance when, in addition, the two documents have equal
maximum raw term counts (the condition the counterexample violates). -/
theorem C2_monotonicity (pp : String → List String)
    (docs : List (String × Doc)) (hnd : (docs.map Prod.fst).Nodup)
    (dA dB : String) (docA docB : Doc)
    (hA : alookup dA docs = some docA) (hB : alookup dB docs = some docB)
    (qt : List String)
    (hfreq : ∀ t ∈ qt, (pp docB.content).count t ≤ (pp docA.content).count t)
    (hmax : maxFreq (countTokens (pp docA.content)) =
      maxFreq (countTokens (pp docB.content))) :
    (alookup dB (scoreDocs (create_index pp docs) qt [])).getD 0 ≤
      (alookup dA (scoreDocs (create_index pp docs) qt [])).getD 0 := by
  rw [scoreDocs_lookup (postingsNodup_create_index pp docs) qt [] dA,
    scoreDocs_lookup (postingsNodup_create_index pp docs) qt [] dB]
  simp only [alookup, Option.getD_none, zero_add]
  have main : ∀ l : List String,
      (∀ t ∈ l, (pp docB.content).count t ≤ (pp docA.content).count t) →
      multiScore (create_index pp docs) dB l ≤
        multiScore (create_index pp docs) dA l := by
    intro l
    induction l with
    | nil => intro _; simp [multiScore]
    | cons t ts ih =>
      intro hf
      simp only [multiScore]
      have hmpos : (0 : ℚ) < (maxFreq (countTokens (pp docA.content)) : ℚ) := by
        exact_mod_cast one_le_maxFreq_countTokens (pp docA.content)
      have h1 : (lookup2 t dB (create_index pp docs)).getD 0 ≤
          (lookup2 t dA (create_index pp docs)).getD 0 := by
        rw [lookup2_getD_create_index pp hnd hA,
          lookup2_getD_create_index pp hnd hB, ← hmax]
        exact (div_le_div_iff_of_pos_right hmpos).mpr
          (by exact_mod_cast hf t (List.mem_cons_self _ _))
      exact add_le_add h1 (ih (fun t' ht' => hf t' (List.mem_cons_of_mem _ ht')))
  exact main qt hfreq

unseal Rat.add Rat.mul Rat.inv Rat.sub in
/-- C2 witness: two documents with equal maximum raw term counts where
A dominates B on the query term "cat": B's score is at most A's. -/
theorem C2_monotonicity_witness :
    (alookup "B" (scoreDocs (create_index specPP docsMono) ["cat"] [])).getD 0 ≤
      (alookup "A" (scoreDocs (create_index specPP docsMono) ["cat"] [])).getD 0 :=
  C2_monotonicity specPP docsMono (by decide) "A" "B"
    ⟨"cat cat dog dog", "a.txt", []⟩ ⟨"cat dog dog", "b.txt", []⟩
    (by decide) (by decide) ["cat"] (by decide) (by decide)

end DocIntel
